import Mathlib

/-!
Shallow embedding of the oxigrad scalar automatic-differentiation engine
(src/oxigrad/engine.rs).

Modelling choices:
* The heap of reference-counted nodes is an arena: a node is addressed by a
  natural-number id (the model of the `Rc` pointer), and an `Env` holds the
  list of allocated node records together with the current contents of every
  data cell and grad cell (the model of the shared `Rc<Cell<f64>>` cells;
  each node owns exactly one data cell and one grad cell, and every closure
  that captured a clone of a cell is modelled as referring to the id of the
  owning node, which is observationally identical).
* Scalars are rationals: every arithmetic step exercised by the spec
  examples is exact in binary floating point, and the engine performs only
  field operations, integer powers and order comparisons on them.
* The `Box<dyn Fn()>` backward closures are first-order: each operation
  builder stores a tagged rule (`BackRule`) recording exactly the cells the
  Rust closure captures; running the rule replays the writes of that closure.
* `panic!` is modelled by `Option`: `Value.backward` returns `none` exactly
  when the replay hits a node whose `backward` field is `None`.
* the recursion of `topological_sort` is bounded by fuel; for graphs built by
  the operation builders every child id is smaller than its parent id, so
  fuel `root + 1` never runs out and the model computes the exact traversal
  of the Rust code.
-/

namespace Oxigrad

/-- The informational operation tag (`enum Operation` in engine.rs). -/
inductive Operation where
  | Addition
  | Subtraction
  | Multiplication
  | Division
  | Power
  | ReLU
  | NoneOp
  deriving DecidableEq, Repr

/-- A first-order representation of the backward closures attached by the
operation builders.  Each constructor records the node ids whose cells the
corresponding Rust closure captured (`s_grad`, `oth_grad`, `out_grad`,
`s_data`, `oth_data`). -/
inductive BackRule where
  | addR (s oth out : ℕ)
  | mulR (s oth out : ℕ)
  | powR (exp : ℤ) (s out : ℕ)
  | reluR (s out : ℕ)
  deriving DecidableEq, Repr

/-- A graph node (`struct Core` in engine.rs): operation tag, optional
ordered child list, optional derivative rule.  The data and grad cells live
in `Env` so that they can be mutated. -/
structure Node where
  op : Option Operation
  children : Option (List ℕ)
  back : Option BackRule
  deriving DecidableEq, Repr

/-- The record a fresh `f64` leaf constructor allocates: no tag, no
children, no rule. -/
def defaultNode : Node := ⟨none, none, none⟩

/-- The whole mutable world: the arena of allocated node records plus the
current contents of every data cell and every grad cell (indexed by the
id of the owning node). -/
structure Env where
  nodes : List Node
  data : ℕ → ℚ
  grad : ℕ → ℚ

/-- Pointwise update of a cell store. -/
def upd {α : Type} (f : ℕ → α) (i : ℕ) (v : α) : ℕ → α :=
  fun j => if j = i then v else f j

/-- The empty world, before any allocation. -/
def env0 : Env := ⟨[], fun _ => 0, fun _ => 0⟩

/-- Dereference a node id (ids beyond the arena never arise from the API;
they read as an inert leaf). -/
def Env.node (env : Env) (n : ℕ) : Node :=
  env.nodes.getD n defaultNode

/-- The child id list of a node (empty for a leaf). -/
def Env.childrenOf (env : Env) (n : ℕ) : List ℕ :=
  (env.node n).children.getD []

/-- A node "has children" exactly when its children field is `Some`
(this is the condition under which `topological_sort` appends it). -/
def Env.HasKids (env : Env) (n : ℕ) : Prop :=
  (env.node n).children ≠ none

instance (env : Env) (n : ℕ) : Decidable (env.HasKids n) := by
  unfold Env.HasKids; infer_instance

/-- `Value::new` on a raw `f64`: allocate a leaf with the given data,
grad 0, no tag, no children, no rule.  Returns the new world and the id of
the fresh node (the `Value` handle). -/
def Value.new (env : Env) (d : ℚ) : Env × ℕ :=
  let i := env.nodes.length
  (⟨env.nodes ++ [defaultNode], upd env.data i d, upd env.grad i 0⟩, i)

/-- `impl Add<&Value> for &Value`: eager forward sum, children
`[self, other]`, and the add backward closure. -/
def Value.add (env : Env) (a b : ℕ) : Env × ℕ :=
  let i := env.nodes.length
  (⟨env.nodes ++ [⟨some Operation.Addition, some [a, b], some (BackRule.addR a b i)⟩],
    upd env.data i (env.data a + env.data b),
    upd env.grad i 0⟩, i)

/-- `impl Mul<&Value> for &Value`: eager forward product, children
`[self, other]`, and the mul backward closure. -/
def Value.mul (env : Env) (a b : ℕ) : Env × ℕ :=
  let i := env.nodes.length
  (⟨env.nodes ++ [⟨some Operation.Multiplication, some [a, b], some (BackRule.mulR a b i)⟩],
    upd env.data i (env.data a * env.data b),
    upd env.grad i 0⟩, i)

/-- `Value::power`: eager `powf`, single child, power backward closure.
The exponent is a plain constant; every use in the engine and its tests is
an integer, modelled with the integer power on ℚ. -/
def Value.power (env : Env) (a : ℕ) (exp : ℤ) : Env × ℕ :=
  let i := env.nodes.length
  (⟨env.nodes ++ [⟨some Operation.Power, some [a], some (BackRule.powR exp a i)⟩],
    upd env.data i (env.data a ^ exp),
    upd env.grad i 0⟩, i)

/-- `Value::relu`: forward `if data >= 0 then data else 0`, single child,
ReLU backward closure. -/
def Value.relu (env : Env) (a : ℕ) : Env × ℕ :=
  let i := env.nodes.length
  (⟨env.nodes ++ [⟨some Operation.ReLU, some [a], some (BackRule.reluR a i)⟩],
    upd env.data i (if 0 ≤ env.data a then env.data a else 0),
    upd env.grad i 0⟩, i)

/-- `impl Neg for &Value`: `self * Value::new(-1.0)` — allocates the fresh
`-1` leaf and then a multiplication node, exactly as the source does. -/
def Value.neg (env : Env) (a : ℕ) : Env × ℕ :=
  let p := Value.new env (-1)
  Value.mul p.1 a p.2

/-- `impl Sub<&Value> for &Value`: `self + (-other)`. -/
def Value.sub (env : Env) (a b : ℕ) : Env × ℕ :=
  let p := Value.neg env b
  Value.add p.1 a p.2

/-- `impl Div<&Value> for &Value`: `self * other.power(-1.0)`. -/
def Value.div (env : Env) (a b : ℕ) : Env × ℕ :=
  let p := Value.power env b (-1)
  Value.mul p.1 a p.2

/-- `Value::get_data`. -/
def Value.get_data (env : Env) (a : ℕ) : ℚ := env.data a

/-- `Value::set_data`: overwrite one data cell, touching nothing else. -/
def Value.set_data (env : Env) (a : ℕ) (v : ℚ) : Env :=
  ⟨env.nodes, upd env.data a v, env.grad⟩

/-- `Value::get_grad`. -/
def Value.get_grad (env : Env) (a : ℕ) : ℚ := env.grad a

/-- `Value::set_grad`: overwrite one grad cell, touching nothing else. -/
def Value.set_grad (env : Env) (a : ℕ) (v : ℚ) : Env :=
  ⟨env.nodes, env.data, upd env.grad a v⟩

/-- Replay one backward closure: the exact sequence of cell reads and
writes the corresponding Rust closure performs. -/
def BackRule.run (r : BackRule) (env : Env) : Env :=
  match r with
  | .addR s oth out =>
      let g1 := upd env.grad s (env.grad s + env.grad out)
      ⟨env.nodes, env.data, upd g1 oth (g1 oth + g1 out)⟩
  | .mulR s oth out =>
      let g1 := upd env.grad s (env.grad s + env.data oth * env.grad out)
      ⟨env.nodes, env.data, upd g1 oth (g1 oth + env.data s * g1 out)⟩
  | .powR exp s out =>
      ⟨env.nodes, env.data,
        upd env.grad s (env.grad s + (exp : ℚ) * env.data s ^ (exp - 1) * env.grad out)⟩
  | .reluR s out =>
      ⟨env.nodes, env.data,
        upd env.grad s (env.grad s + (if env.data s < 0 then 0 else 1 * env.grad out))⟩

/-- The `topological_sort` helper of `Value::backward`: depth-first
traversal with an identity-keyed visited set; a node is appended to the
order only when its children field is `Some`.  The state is the pair
(visited, order); `fuel` bounds the recursion depth and never runs out on
builder-built graphs when it starts at `root + 1`. -/
def topo (env : Env) : ℕ → ℕ → List ℕ × List ℕ → List ℕ × List ℕ
  | 0, _, s => s
  | fuel + 1, n, s =>
    if n ∈ s.1 then s
    else
      let s1 : List ℕ × List ℕ := (n :: s.1, s.2)
      match (env.node n).children with
      | none => s1
      | some cs =>
          let s2 := cs.foldl (fun t c => topo env fuel c t) s1
          (s2.1, s2.2 ++ [n])

/-- The order list `tp_order` computed by `Value::backward` before
replaying. -/
def ordOf (env : Env) (root : ℕ) : List ℕ :=
  (topo env (root + 1) root ([], [])).2

/-- The replay loop of `Value::backward`: run the backward closure of each node
in the given (already reversed) order; a missing closure is the
`panic!("No backward closure to call for this node")` path, modelled as
`none`. -/
def replay (env : Env) : List ℕ → Option Env
  | [] => some env
  | n :: ns =>
      match (env.node n).back with
      | some r => replay (r.run env) ns
      | none => none

/-- `Value::backward`: topological sort, seed the root grad cell with 1,
replay the order in reverse.  `none` models the panic on a missing
closure. -/
def Value.backward (env : Env) (root : ℕ) : Option Env :=
  replay (Value.set_grad env root 1) (ordOf env root).reverse

/-- Read a grad cell out of a possibly-panicked backward result. -/
def gradAt (o : Option Env) (i : ℕ) : Option ℚ :=
  o.map (fun e => e.grad i)

/-- Read a data cell out of a possibly-panicked backward result. -/
def dataAt (o : Option Env) (i : ℕ) : Option ℚ :=
  o.map (fun e => e.data i)

end Oxigrad

namespace Oxigrad

/-- `impl PartialEq for Value`: two handles are equal when the underlying
`Rc` pointers coincide; in the arena model the pointer is the node id. -/
def Value.ptrEq (v w : ℕ) : Bool := v == w

/-- `impl Hash for Value`: the hash key is the pointer, modelled as the
node id itself. -/
def Value.hashOf (v : ℕ) : ℕ := v

/-!
The example graph of the spec (§8) and of `test_mul`:
`a = 1.0`, `b = 2.0`, `c = a + b`, `d = c * b`.
Node ids: a = 0, b = 1, c = 2, d = 3.
-/

def exA : Env × ℕ := Value.new env0 1
def exB : Env × ℕ := Value.new exA.1 2
def exC : Env × ℕ := Value.add exB.1 exA.2 exB.2
def exD : Env × ℕ := Value.mul exC.1 exC.2 exB.2
def exEnv : Env := exD.1

/-- The state after the first `d.backward()` call on the example graph;
the call does not panic (proved in the C1 theorems), so the default is
never taken. -/
def exEnv1 : Env := (Value.backward exEnv 3).getD env0

/-!
The division graph of the spec (§8) and of `test_div`:
`a = 1.0`, `b = 2.0`, `c = a + b`, `d = c / b`.
Division allocates the reciprocal power node first, so the ids are:
a = 0, b = 1, c = 2, the node `b.power(-1)` = 3, d = 4.
-/

def dvA : Env × ℕ := Value.new env0 1
def dvB : Env × ℕ := Value.new dvA.1 2
def dvC : Env × ℕ := Value.add dvB.1 dvA.2 dvB.2
def dvD : Env × ℕ := Value.div dvC.1 dvC.2 dvB.2
def dvEnv : Env := dvD.1

/-!
The inactive-ReLU graph of the spec (§8) and of `test_relu_neg`:
`a = 1.0`, `b = 2.0`, `c = a - (b * 2)`, `d = c.relu()`, `e = d * 2`.
Ids follow the allocation order of the source expression
`let c = a - (b * Value::new(2.0))`: a = 0, b = 1, the fresh leaf 2.0 = 2,
`b * 2` = 3, the leaf -1.0 allocated by neg = 4, the negation product = 5,
c = 6, d = 7, the second fresh leaf 2.0 = 8, e = 9.
-/

def rlA : Env × ℕ := Value.new env0 1
def rlB : Env × ℕ := Value.new rlA.1 2
def rlT : Env × ℕ := Value.new rlB.1 2
def rlM : Env × ℕ := Value.mul rlT.1 rlB.2 rlT.2
def rlC : Env × ℕ := Value.sub rlM.1 rlA.2 rlM.2
def rlD : Env × ℕ := Value.relu rlC.1 rlC.2
def rlT2 : Env × ℕ := Value.new rlD.1 2
def rlE : Env × ℕ := Value.mul rlT2.1 rlD.2 rlT2.2
def rlEnv : Env := rlE.1

end Oxigrad

open Oxigrad

/-- C2.  In the graph a = 1, b = 2, c = a + b, d = c * b the forward data
of d is 6, the backward call succeeds, and afterwards the grad of b is 5:
the sum of the multiplication contribution (c.data = 3) and the addition
contribution routed through c (2). -/
theorem oxigrad_C2_mul_add_example :
    Value.get_data exEnv 3 = 6 ∧
    gradAt (Value.backward exEnv 3) 1 = some 5 := by
  constructor
  · norm_num [Value.get_data, exEnv, exD, exC, exB, exA, Value.mul, Value.add, Value.new,
      env0, upd]
  · have hord : (ordOf exEnv 3).reverse = [3, 2] := by decide
    have h3 : Env.node exEnv 3
        = ⟨some Operation.Multiplication, some [2, 1], some (BackRule.mulR 2 1 3)⟩ := by decide
    have h2 : Env.node exEnv 2
        = ⟨some Operation.Addition, some [0, 1], some (BackRule.addR 0 1 2)⟩ := by decide
    norm_num [gradAt, Value.backward, hord, replay, h3, h2, BackRule.run, Value.set_grad,
      exEnv, exD, exC, exB, exA, Value.mul, Value.add, Value.new, env0, upd, Env.node]

/-- C5.  In the graph a = 1, b = 2, c = a + b, d = c / b, where division is
`c * b.power(-1)`, the forward data of d is 3/2 and after backward the grad
of b is -1/4: the power-rule contribution through the reciprocal node,
(-1) * 2 ^ (-2) * 3 = -3/4, plus the addition contribution 1/2. -/
theorem oxigrad_C5_div_example :
    Value.get_data dvEnv 4 = 3 / 2 ∧
    gradAt (Value.backward dvEnv 4) 1 = some (-(1 / 4)) := by
  constructor
  · norm_num [Value.get_data, dvEnv, dvD, dvC, dvB, dvA, Value.div, Value.power, Value.mul,
      Value.add, Value.new, env0, upd]
  · have hord : (ordOf dvEnv 4).reverse = [4, 3, 2] := by decide
    have h4 : Env.node dvEnv 4
        = ⟨some Operation.Multiplication, some [2, 3], some (BackRule.mulR 2 3 4)⟩ := by decide
    have h3 : Env.node dvEnv 3
        = ⟨some Operation.Power, some [1], some (BackRule.powR (-1) 1 3)⟩ := by decide
    have h2 : Env.node dvEnv 2
        = ⟨some Operation.Addition, some [0, 1], some (BackRule.addR 0 1 2)⟩ := by decide
    norm_num [gradAt, Value.backward, hord, replay, h4, h3, h2, BackRule.run, Value.set_grad,
      dvEnv, dvD, dvC, dvB, dvA, Value.div, Value.power, Value.mul, Value.add, Value.new,
      env0, upd, Env.node]

/-- C6.  In the graph a = 1, b = 2, c = a - (b * 2), d = c.relu(),
e = d * 2, the forward data of e is 0 (c.data = -3 is clipped by ReLU) and
after backward the grad of b is 0, because the ReLU rule contributes zero
when the data of its operand is negative. -/
theorem oxigrad_C6_relu_inactive_example :
    Value.get_data rlEnv 9 = 0 ∧
    gradAt (Value.backward rlEnv 9) 1 = some 0 := by
  constructor
  · norm_num [Value.get_data, rlEnv, rlE, rlT2, rlD, rlC, rlM, rlT, rlB, rlA, Value.relu,
      Value.sub, Value.neg, Value.mul, Value.add, Value.new, env0, upd]
  · have hord : (ordOf rlEnv 9).reverse = [9, 7, 6, 5, 3] := by decide
    have h9 : Env.node rlEnv 9
        = ⟨some Operation.Multiplication, some [7, 8], some (BackRule.mulR 7 8 9)⟩ := by decide
    have h7 : Env.node rlEnv 7
        = ⟨some Operation.ReLU, some [6], some (BackRule.reluR 6 7)⟩ := by decide
    have h6 : Env.node rlEnv 6
        = ⟨some Operation.Addition, some [0, 5], some (BackRule.addR 0 5 6)⟩ := by decide
    have h5 : Env.node rlEnv 5
        = ⟨some Operation.Multiplication, some [3, 4], some (BackRule.mulR 3 4 5)⟩ := by decide
    have h3 : Env.node rlEnv 3
        = ⟨some Operation.Multiplication, some [1, 2], some (BackRule.mulR 1 2 3)⟩ := by decide
    norm_num [gradAt, Value.backward, hord, replay, h9, h7, h6, h5, h3, BackRule.run,
      Value.set_grad, rlEnv, rlE, rlT2, rlD, rlC, rlM, rlT, rlB, rlA, Value.relu, Value.sub,
      Value.neg, Value.mul, Value.add, Value.new, env0, upd, Env.node]

/-- C1 counterexample.  Running backward twice on d in the graph a = 1,
b = 2, c = a + b, d = c * b does not double every reachable grad: after
one call the grad of a is 2, after two calls it is 6, not 4.  (The root
itself also fails the doubling law: its grad is re-seeded to 1 by each
call.) -/
theorem oxigrad_C1_counterexample :
    Value.backward exEnv 3 = some exEnv1 ∧
    Value.get_grad exEnv1 0 = 2 ∧
    gradAt (Value.backward exEnv1 3) 0 = some 6 ∧
    ¬ gradAt (Value.backward exEnv1 3) 0 = some (2 * Value.get_grad exEnv1 0) := by
  have hfirst : Value.backward exEnv 3 = some exEnv1 := by
    have hs : (Value.backward exEnv 3).isSome = true := by decide
    cases hh : Value.backward exEnv 3 with
    | none => rw [hh] at hs; cases hs
    | some e => simp [exEnv1, hh]
  have hord : (ordOf exEnv 3).reverse = [3, 2] := by decide
  have h3 : Env.node exEnv 3
      = ⟨some Operation.Multiplication, some [2, 1], some (BackRule.mulR 2 1 3)⟩ := by decide
  have h2 : Env.node exEnv 2
      = ⟨some Operation.Addition, some [0, 1], some (BackRule.addR 0 1 2)⟩ := by decide
  have hord1 : (ordOf exEnv1 3).reverse = [3, 2] := by decide
  have h13 : Env.node exEnv1 3
      = ⟨some Operation.Multiplication, some [2, 1], some (BackRule.mulR 2 1 3)⟩ := by decide
  have h12 : Env.node exEnv1 2
      = ⟨some Operation.Addition, some [0, 1], some (BackRule.addR 0 1 2)⟩ := by decide
  refine ⟨hfirst, ?_, ?_, ?_⟩ <;>
    norm_num [Value.get_grad, gradAt, Value.backward, hord, hord1, replay, h3, h2, h13, h12,
      BackRule.run, Value.set_grad, exEnv1, exEnv, exD, exC, exB, exA, Value.mul, Value.add,
      Value.new, env0, upd, Env.node]

/-- C1 amended.  Running backward twice in succession without resetting
grads accumulates the contributions of the second pass additively on top
of the surviving first-pass grads instead of uniformly doubling them: each
call re-seeds the root grad to exactly 1 (so it stays 1, not 2), and the
second pass propagates the already-accumulated interior grads, so deeper
nodes can exceed twice their single-pass grad.  In the graph a = 1, b = 2,
c = a + b, d = c * b the grads (a, b, c, d) are (2, 5, 2, 1) after one
call and (6, 12, 4, 1) after two. -/
theorem oxigrad_C1_amended_additive_accumulation :
    Value.backward exEnv 3 = some exEnv1 ∧
    (Value.get_grad exEnv1 0 = 2 ∧ Value.get_grad exEnv1 1 = 5 ∧
     Value.get_grad exEnv1 2 = 2 ∧ Value.get_grad exEnv1 3 = 1) ∧
    (gradAt (Value.backward exEnv1 3) 0 = some 6 ∧
     gradAt (Value.backward exEnv1 3) 1 = some 12 ∧
     gradAt (Value.backward exEnv1 3) 2 = some 4 ∧
     gradAt (Value.backward exEnv1 3) 3 = some 1) := by
  have hfirst : Value.backward exEnv 3 = some exEnv1 := by
    have hs : (Value.backward exEnv 3).isSome = true := by decide
    cases hh : Value.backward exEnv 3 with
    | none => rw [hh] at hs; cases hs
    | some e => simp [exEnv1, hh]
  have hord : (ordOf exEnv 3).reverse = [3, 2] := by decide
  have h3 : Env.node exEnv 3
      = ⟨some Operation.Multiplication, some [2, 1], some (BackRule.mulR 2 1 3)⟩ := by decide
  have h2 : Env.node exEnv 2
      = ⟨some Operation.Addition, some [0, 1], some (BackRule.addR 0 1 2)⟩ := by decide
  have hord1 : (ordOf exEnv1 3).reverse = [3, 2] := by decide
  have h13 : Env.node exEnv1 3
      = ⟨some Operation.Multiplication, some [2, 1], some (BackRule.mulR 2 1 3)⟩ := by decide
  have h12 : Env.node exEnv1 2
      = ⟨some Operation.Addition, some [0, 1], some (BackRule.addR 0 1 2)⟩ := by decide
  refine ⟨hfirst, ⟨?_, ?_, ?_, ?_⟩, ⟨?_, ?_, ?_, ?_⟩⟩ <;>
    norm_num [Value.get_grad, gradAt, Value.backward, hord, hord1, replay, h3, h2, h13, h12,
      BackRule.run, Value.set_grad, exEnv1, exEnv, exD, exC, exB, exA, Value.mul, Value.add,
      Value.new, env0, upd, Env.node]

namespace Oxigrad

/-!
Graphs for the identity-vs-value claim: two distinct leaves that both
carry data 1 feeding one addition, versus one leaf used twice by one
addition.  Ids: idEnv has a = 0, b = 1, c = 2; idEnv2 has a = 0, c = 1.
-/

def idA : Env × ℕ := Value.new env0 1
def idB : Env × ℕ := Value.new idA.1 1
def idC : Env × ℕ := Value.add idB.1 idA.2 idB.2
def idEnv : Env := idC.1

def idA2 : Env × ℕ := Value.new env0 1
def idC2 : Env × ℕ := Value.add idA2.1 idA2.2 idA2.2
def idEnv2 : Env := idC2.1

/-!
The parametric two-leaf product graph for the aliasing claim:
a = 0 with data da, b = 1 with data db, out = a * b = 2.
-/

def mgA (da : ℚ) : Env × ℕ := Value.new env0 da
def mgB (da db : ℚ) : Env × ℕ := Value.new (mgA da).1 db
def mgOut (da db : ℚ) : Env × ℕ := Value.mul (mgB da db).1 0 1
def mgEnv (da db : ℚ) : Env := (mgOut da db).1

end Oxigrad

/-- C7.  Handle equality and hashing are by node identity: in the arena
model the pointer is the node id, so two handles are equal (and hash
equal) exactly when they are the same id; two freshly constructed leaves
carrying equal data are distinct handles; and the visited-set
deduplication keys on graph position, not data: two distinct leaves with
equal data 1 under one addition each receive grad 1, while a single leaf
used for both child slots accumulates grad 2. -/
theorem oxigrad_C7_identity_equality :
    (∀ v w : ℕ, Value.ptrEq v w = true ↔ v = w) ∧
    (∀ v w : ℕ, Value.hashOf v = Value.hashOf w ↔ v = w) ∧
    (∀ (env : Env) (d : ℚ),
      (Value.new env d).2 ≠ (Value.new (Value.new env d).1 d).2 ∧
      Value.get_data (Value.new (Value.new env d).1 d).1 (Value.new env d).2
        = Value.get_data (Value.new (Value.new env d).1 d).1 (Value.new (Value.new env d).1 d).2) ∧
    (Value.get_data idEnv 0 = Value.get_data idEnv 1 ∧
     gradAt (Value.backward idEnv 2) 0 = some 1 ∧
     gradAt (Value.backward idEnv 2) 1 = some 1 ∧
     gradAt (Value.backward idEnv2 1) 0 = some 2) := by
  refine ⟨?_, ?_, ?_, ?_, ?_, ?_, ?_⟩
  · intro v w
    simp [Value.ptrEq]
  · intro v w
    simp [Value.hashOf]
  · intro env d
    refine ⟨?_, ?_⟩
    · simp [Value.new]
    · simp [Value.new, Value.get_data, upd]
  · norm_num [Value.get_data, idEnv, idC, idB, idA, Value.add, Value.new, env0, upd]
  · have hord : (ordOf idEnv 2).reverse = [2] := by decide
    have h2 : Env.node idEnv 2
        = ⟨some Operation.Addition, some [0, 1], some (BackRule.addR 0 1 2)⟩ := by decide
    norm_num [gradAt, Value.backward, hord, replay, h2, BackRule.run, Value.set_grad,
      idEnv, idC, idB, idA, Value.add, Value.new, env0, upd, Env.node]
  · have hord : (ordOf idEnv 2).reverse = [2] := by decide
    have h2 : Env.node idEnv 2
        = ⟨some Operation.Addition, some [0, 1], some (BackRule.addR 0 1 2)⟩ := by decide
    norm_num [gradAt, Value.backward, hord, replay, h2, BackRule.run, Value.set_grad,
      idEnv, idC, idB, idA, Value.add, Value.new, env0, upd, Env.node]
  · have hord : (ordOf idEnv2 1).reverse = [1] := by decide
    have h1 : Env.node idEnv2 1
        = ⟨some Operation.Addition, some [0, 0], some (BackRule.addR 0 0 1)⟩ := by decide
    norm_num [gradAt, Value.backward, hord, replay, h1, BackRule.run, Value.set_grad,
      idEnv2, idC2, idA2, Value.add, Value.new, env0, upd, Env.node]

/-- C9.  Derivative rules read cells by reference, not by snapshot: for
out = a * b with a, b leaves holding da and db, overwriting the data cell
of a with v after construction but before backward makes the backward pass
put v (the current data of a, times the seeded out-grad 1) into the grad
cell of b, while the grad of a receives db and the out grad is 1. -/
theorem oxigrad_C9_aliasing_current_data (da db v : ℚ) :
    gradAt (Value.backward (Value.set_data (mgEnv da db) 0 v) 2) 1 = some v ∧
    gradAt (Value.backward (Value.set_data (mgEnv da db) 0 v) 2) 0 = some db ∧
    gradAt (Value.backward (Value.set_data (mgEnv da db) 0 v) 2) 2 = some 1 := by
  have hord : (ordOf (Value.set_data (mgEnv da db) 0 v) 2).reverse = [2] := rfl
  have h2 : Env.node (Value.set_data (mgEnv da db) 0 v) 2
      = ⟨some Operation.Multiplication, some [0, 1], some (BackRule.mulR 0 1 2)⟩ := rfl
  refine ⟨?_, ?_, ?_⟩ <;>
    norm_num [gradAt, Value.backward, hord, replay, h2, BackRule.run, Value.set_grad,
      Value.set_data, mgEnv, mgOut, mgB, mgA, Value.mul, Value.new, env0, upd, Env.node]

/-- C10.  Calling backward on a leaf (children field `None`) never panics:
the traversal order stays empty, so the only effect of the call is writing
1 into the grad cell of that leaf; the node arena, every data cell, and
the grad cell of every other node are unchanged. -/
theorem oxigrad_C10_leaf_backward (env : Env) (root : ℕ)
    (h : (Env.node env root).children = none) :
    Value.backward env root = some (Value.set_grad env root 1) ∧
    ordOf env root = [] ∧
    (Value.set_grad env root 1).nodes = env.nodes ∧
    (Value.set_grad env root 1).data = env.data ∧
    Value.get_grad (Value.set_grad env root 1) root = 1 ∧
    ∀ i, i ≠ root → Value.get_grad (Value.set_grad env root 1) i = Value.get_grad env i := by
  have hord : ordOf env root = [] := by
    simp [ordOf, topo, h]
  refine ⟨?_, hord, rfl, rfl, ?_, ?_⟩
  · simp [Value.backward, hord, replay]
  · simp [Value.get_grad, Value.set_grad, upd]
  · intro i hi
    simp [Value.get_grad, Value.set_grad, upd, hi]

/-- C10 witness: the leaf-backward theorem applied to the concrete
single-leaf world holding data 1 at id 0. -/
theorem oxigrad_C10_witness :
    (Env.node exA.1 0).children = none ∧
    (Value.backward exA.1 0 = some (Value.set_grad exA.1 0 1) ∧
     ordOf exA.1 0 = [] ∧
     (Value.set_grad exA.1 0 1).nodes = exA.1.nodes ∧
     (Value.set_grad exA.1 0 1).data = exA.1.data ∧
     Value.get_grad (Value.set_grad exA.1 0 1) 0 = 1 ∧
     ∀ i, i ≠ 0 → Value.get_grad (Value.set_grad exA.1 0 1) i = Value.get_grad exA.1 i) :=
  ⟨by decide, oxigrad_C10_leaf_backward exA.1 0 (by decide)⟩

namespace Oxigrad

/-- Appending one node record and writing only the fresh cells leaves
every existing node record, data cell and grad cell unchanged.  This is
the common shape of all five primitive builders. -/
theorem push_env_frame (env : Env) (x : Node) (dv : ℚ) (i : ℕ)
    (hi : i < env.nodes.length) :
    (Env.mk (env.nodes ++ [x]) (upd env.data env.nodes.length dv)
        (upd env.grad env.nodes.length 0)).node i = env.node i ∧
    upd env.data env.nodes.length dv i = env.data i ∧
    upd env.grad env.nodes.length 0 i = env.grad i := by
  refine ⟨List.getD_append _ _ _ _ hi, ?_, ?_⟩ <;>
    (simp only [upd]; rw [if_neg (by omega)])

theorem new_frame (env : Env) (d : ℚ) (i : ℕ) (hi : i < env.nodes.length) :
    (Value.new env d).1.node i = env.node i ∧
    (Value.new env d).1.data i = env.data i ∧
    (Value.new env d).1.grad i = env.grad i :=
  push_env_frame env _ _ i hi

theorem add_frame (env : Env) (a b : ℕ) (i : ℕ) (hi : i < env.nodes.length) :
    (Value.add env a b).1.node i = env.node i ∧
    (Value.add env a b).1.data i = env.data i ∧
    (Value.add env a b).1.grad i = env.grad i :=
  push_env_frame env _ _ i hi

theorem mul_frame (env : Env) (a b : ℕ) (i : ℕ) (hi : i < env.nodes.length) :
    (Value.mul env a b).1.node i = env.node i ∧
    (Value.mul env a b).1.data i = env.data i ∧
    (Value.mul env a b).1.grad i = env.grad i :=
  push_env_frame env _ _ i hi

theorem power_frame (env : Env) (a : ℕ) (k : ℤ) (i : ℕ) (hi : i < env.nodes.length) :
    (Value.power env a k).1.node i = env.node i ∧
    (Value.power env a k).1.data i = env.data i ∧
    (Value.power env a k).1.grad i = env.grad i :=
  push_env_frame env _ _ i hi

theorem relu_frame (env : Env) (a : ℕ) (i : ℕ) (hi : i < env.nodes.length) :
    (Value.relu env a).1.node i = env.node i ∧
    (Value.relu env a).1.data i = env.data i ∧
    (Value.relu env a).1.grad i = env.grad i :=
  push_env_frame env _ _ i hi

theorem new_len (env : Env) (d : ℚ) :
    (Value.new env d).1.nodes.length = env.nodes.length + 1 := by
  simp [Value.new]

theorem power_len (env : Env) (a : ℕ) (k : ℤ) :
    (Value.power env a k).1.nodes.length = env.nodes.length + 1 := by
  simp [Value.power]

theorem neg_len (env : Env) (a : ℕ) :
    (Value.neg env a).1.nodes.length = env.nodes.length + 2 := by
  simp [Value.neg, Value.mul, Value.new]

theorem neg_frame (env : Env) (a : ℕ) (i : ℕ) (hi : i < env.nodes.length) :
    (Value.neg env a).1.node i = env.node i ∧
    (Value.neg env a).1.data i = env.data i ∧
    (Value.neg env a).1.grad i = env.grad i := by
  have h1 := new_frame env (-1) i hi
  have h2 := mul_frame (Value.new env (-1)).1 a (Value.new env (-1)).2 i
    (by rw [new_len]; omega)
  unfold Value.neg
  exact ⟨h2.1.trans h1.1, h2.2.1.trans h1.2.1, h2.2.2.trans h1.2.2⟩

theorem sub_frame (env : Env) (a b : ℕ) (i : ℕ) (hi : i < env.nodes.length) :
    (Value.sub env a b).1.node i = env.node i ∧
    (Value.sub env a b).1.data i = env.data i ∧
    (Value.sub env a b).1.grad i = env.grad i := by
  have h1 := neg_frame env b i hi
  have h2 := add_frame (Value.neg env b).1 a (Value.neg env b).2 i
    (by rw [neg_len]; omega)
  unfold Value.sub
  exact ⟨h2.1.trans h1.1, h2.2.1.trans h1.2.1, h2.2.2.trans h1.2.2⟩

theorem div_frame (env : Env) (a b : ℕ) (i : ℕ) (hi : i < env.nodes.length) :
    (Value.div env a b).1.node i = env.node i ∧
    (Value.div env a b).1.data i = env.data i ∧
    (Value.div env a b).1.grad i = env.grad i := by
  have h1 := power_frame env b (-1) i hi
  have h2 := mul_frame (Value.power env b (-1)).1 a (Value.power env b (-1)).2 i
    (by rw [power_len]; omega)
  unfold Value.div
  exact ⟨h2.1.trans h1.1, h2.2.1.trans h1.2.1, h2.2.2.trans h1.2.2⟩

/-- Running one backward closure rewrites only grad cells. -/
theorem run_nodes_data (r : BackRule) (env : Env) :
    (r.run env).nodes = env.nodes ∧ (r.run env).data = env.data := by
  cases r <;> simp [BackRule.run]

/-- The whole replay loop rewrites only grad cells. -/
theorem replay_nodes_data :
    ∀ (l : List ℕ) (e e2 : Env), replay e l = some e2 →
      e2.nodes = e.nodes ∧ e2.data = e.data := by
  intro l
  induction l with
  | nil =>
      intro e e2 h
      simp only [replay, Option.some.injEq] at h
      subst h
      exact ⟨rfl, rfl⟩
  | cons n ns ih =>
      intro e e2 h
      simp only [replay] at h
      cases hb : (e.node n).back with
      | none => rw [hb] at h; cases h
      | some r =>
          rw [hb] at h
          have hr := run_nodes_data r e
          have h2 := ih (r.run e) e2 h
          exact ⟨h2.1.trans hr.1, h2.2.trans hr.2⟩

end Oxigrad

/-- C8.  Frame conditions: no operation builder (add, mul, power, relu,
nor the derived neg, sub, div, nor a fresh leaf constructor) changes any
existing node record, data cell or grad cell of the world it runs in, and
a successful backward call changes neither the node arena (children,
operation tags, rules) nor any data cell — only grad cells. -/
theorem oxigrad_C8_frame (env : Env) (a b i root : ℕ) (d : ℚ) (k : ℤ) (e2 : Env)
    (hi : i < env.nodes.length)
    (hb : Value.backward env root = some e2) :
    ((Value.new env d).1.node i = env.node i ∧
     (Value.new env d).1.data i = env.data i ∧
     (Value.new env d).1.grad i = env.grad i) ∧
    ((Value.add env a b).1.node i = env.node i ∧
     (Value.add env a b).1.data i = env.data i ∧
     (Value.add env a b).1.grad i = env.grad i) ∧
    ((Value.mul env a b).1.node i = env.node i ∧
     (Value.mul env a b).1.data i = env.data i ∧
     (Value.mul env a b).1.grad i = env.grad i) ∧
    ((Value.power env a k).1.node i = env.node i ∧
     (Value.power env a k).1.data i = env.data i ∧
     (Value.power env a k).1.grad i = env.grad i) ∧
    ((Value.relu env a).1.node i = env.node i ∧
     (Value.relu env a).1.data i = env.data i ∧
     (Value.relu env a).1.grad i = env.grad i) ∧
    ((Value.neg env a).1.node i = env.node i ∧
     (Value.neg env a).1.data i = env.data i ∧
     (Value.neg env a).1.grad i = env.grad i) ∧
    ((Value.sub env a b).1.node i = env.node i ∧
     (Value.sub env a b).1.data i = env.data i ∧
     (Value.sub env a b).1.grad i = env.grad i) ∧
    ((Value.div env a b).1.node i = env.node i ∧
     (Value.div env a b).1.data i = env.data i ∧
     (Value.div env a b).1.grad i = env.grad i) ∧
    (e2.nodes = env.nodes ∧ e2.data = env.data) := by
  refine ⟨new_frame env d i hi, add_frame env a b i hi, mul_frame env a b i hi,
    power_frame env a k i hi, relu_frame env a i hi, neg_frame env a i hi,
    sub_frame env a b i hi, div_frame env a b i hi, ?_⟩
  have hb2 : replay (Value.set_grad env root 1) (ordOf env root).reverse = some e2 := hb
  exact replay_nodes_data ((ordOf env root).reverse) (Value.set_grad env root 1) e2 hb2

/-- C8 witness: the frame theorem applied to the concrete example graph
a = 1, b = 2, c = a + b, d = c * b, at node 0 and backward root 3. -/
theorem oxigrad_C8_witness :
    (0 < exEnv.nodes.length ∧ Value.backward exEnv 3 = some exEnv1) ∧
    (((Value.new exEnv 5).1.node 0 = exEnv.node 0 ∧
      (Value.new exEnv 5).1.data 0 = exEnv.data 0 ∧
      (Value.new exEnv 5).1.grad 0 = exEnv.grad 0) ∧
     ((Value.add exEnv 2 1).1.node 0 = exEnv.node 0 ∧
      (Value.add exEnv 2 1).1.data 0 = exEnv.data 0 ∧
      (Value.add exEnv 2 1).1.grad 0 = exEnv.grad 0) ∧
     ((Value.mul exEnv 2 1).1.node 0 = exEnv.node 0 ∧
      (Value.mul exEnv 2 1).1.data 0 = exEnv.data 0 ∧
      (Value.mul exEnv 2 1).1.grad 0 = exEnv.grad 0) ∧
     ((Value.power exEnv 2 (-1)).1.node 0 = exEnv.node 0 ∧
      (Value.power exEnv 2 (-1)).1.data 0 = exEnv.data 0 ∧
      (Value.power exEnv 2 (-1)).1.grad 0 = exEnv.grad 0) ∧
     ((Value.relu exEnv 2).1.node 0 = exEnv.node 0 ∧
      (Value.relu exEnv 2).1.data 0 = exEnv.data 0 ∧
      (Value.relu exEnv 2).1.grad 0 = exEnv.grad 0) ∧
     ((Value.neg exEnv 2).1.node 0 = exEnv.node 0 ∧
      (Value.neg exEnv 2).1.data 0 = exEnv.data 0 ∧
      (Value.neg exEnv 2).1.grad 0 = exEnv.grad 0) ∧
     ((Value.sub exEnv 2 1).1.node 0 = exEnv.node 0 ∧
      (Value.sub exEnv 2 1).1.data 0 = exEnv.data 0 ∧
      (Value.sub exEnv 2 1).1.grad 0 = exEnv.grad 0) ∧
     ((Value.div exEnv 2 1).1.node 0 = exEnv.node 0 ∧
      (Value.div exEnv 2 1).1.data 0 = exEnv.data 0 ∧
      (Value.div exEnv 2 1).1.grad 0 = exEnv.grad 0) ∧
     (exEnv1.nodes = exEnv.nodes ∧ exEnv1.data = exEnv.data)) := by
  have hfirst : Value.backward exEnv 3 = some exEnv1 := by
    have hs : (Value.backward exEnv 3).isSome = true := by decide
    cases hh : Value.backward exEnv 3 with
    | none => rw [hh] at hs; cases hs
    | some e => simp [exEnv1, hh]
  exact ⟨⟨by decide, hfirst⟩,
    oxigrad_C8_frame exEnv 2 1 0 3 5 (-1) exEnv1 (by decide) hfirst⟩

namespace Oxigrad

/-- Well-formedness of the arena: every child id is strictly smaller than
the id of its parent.  Every graph built through the operation builders
has this shape, because a builder can only reference nodes that already
exist.  The quantifier is bounded by the arena size, so the predicate is
decidable; ids beyond the arena read as leaves and have no children. -/
def WF (env : Env) : Prop :=
  ∀ n, n < env.nodes.length → ∀ c ∈ env.childrenOf n, c < n

instance (env : Env) : Decidable (WF env) := by
  unfold WF; infer_instance

/-- One step of the child relation: `b` is a child of `a`. -/
def Child (env : Env) (a b : ℕ) : Prop := b ∈ env.childrenOf a

/-- Reachability through child edges (reflexive-transitive). -/
def Reach (env : Env) : ℕ → ℕ → Prop := Relation.ReflTransGen (Child env)

/-- Strict descendance through child edges (at least one edge). -/
def Desc (env : Env) : ℕ → ℕ → Prop := Relation.TransGen (Child env)

theorem childrenOf_eq {env : Env} {n : ℕ} {cs : List ℕ}
    (h : (env.node n).children = some cs) : env.childrenOf n = cs := by
  simp [Env.childrenOf, h]

theorem mem_childrenOf_hasKids {env : Env} {n c : ℕ}
    (h : c ∈ env.childrenOf n) : env.HasKids n := by
  unfold Env.childrenOf at h
  unfold Env.HasKids
  cases hch : (env.node n).children with
  | none => rw [hch] at h; simp at h
  | some cs => simp [hch]

/-- The bounded well-formedness predicate controls all ids: out-of-arena
ids dereference to the default leaf, which has no children. -/
theorem wf_all {env : Env} (h : WF env) :
    ∀ n c, c ∈ env.childrenOf n → c < n := by
  intro n c hc
  by_cases hn : n < env.nodes.length
  · exact h n hn c hc
  · exfalso
    have hnode : env.node n = defaultNode :=
      List.getD_eq_default _ _ (Nat.le_of_not_lt hn)
    rw [Env.childrenOf, hnode] at hc
    simp [defaultNode] at hc

/-- Generic preservation of a predicate along the child fold inside the
traversal. -/
theorem foldl_pres {P : List ℕ × List ℕ → Prop}
    (f : ℕ → List ℕ × List ℕ → List ℕ × List ℕ) :
    ∀ (cs : List ℕ) (s : List ℕ × List ℕ),
      (∀ c ∈ cs, ∀ t, P t → P (f c t)) → P s →
      P (cs.foldl (fun t c => f c t) s) := by
  intro cs
  induction cs with
  | nil => intro s _ hs; simpa using hs
  | cons c cs ih =>
      intro s hstep hs
      simp only [List.foldl_cons]
      exact ih _ (fun c2 hc2 => hstep c2 (List.mem_cons_of_mem _ hc2))
        (hstep c (List.mem_cons_self _ _) s hs)

/-- The visited set only grows. -/
theorem topo_vis_sub (env : Env) :
    ∀ fuel n s, s.1 ⊆ (topo env fuel n s).1 := by
  intro fuel
  induction fuel with
  | zero => intro n s; simp [topo]
  | succ fuel ih =>
      intro n s
      by_cases hn : n ∈ s.1
      · simp only [topo, if_pos hn]
        exact fun a ha => ha
      · cases hch : (env.node n).children with
        | none =>
            simp only [topo, if_neg hn, hch]
            exact fun a ha => List.mem_cons_of_mem _ ha
        | some cs =>
            simp only [topo, if_neg hn, hch]
            intro a ha
            have base : a ∈ (n :: s.1, s.2).1 := List.mem_cons_of_mem _ ha
            exact foldl_pres (P := fun t => a ∈ t.1) _ cs _
              (fun c _ t ht => ih c t ht) base

/-- The order list only grows. -/
theorem topo_ord_sub (env : Env) :
    ∀ fuel n s, ∀ m ∈ s.2, m ∈ (topo env fuel n s).2 := by
  intro fuel
  induction fuel with
  | zero => intro n s; simp [topo]
  | succ fuel ih =>
      intro n s
      by_cases hn : n ∈ s.1
      · simp only [topo, if_pos hn]
        exact fun m hm => hm
      · cases hch : (env.node n).children with
        | none =>
            simp only [topo, if_neg hn, hch]
            exact fun m hm => hm
        | some cs =>
            simp only [topo, if_neg hn, hch]
            intro m hm
            have base : m ∈ (n :: s.1, s.2).2 := hm
            have h2 := foldl_pres (P := fun t => m ∈ t.2) _ cs (n :: s.1, s.2)
              (fun c _ t ht => ih c t m ht) base
            exact List.mem_append_left _ h2

/-- A traversed node ends up visited. -/
theorem topo_mem_self (env : Env) :
    ∀ fuel n s, 0 < fuel → n ∈ (topo env fuel n s).1 := by
  intro fuel
  cases fuel with
  | zero => intro n s h; cases h
  | succ fuel =>
      intro n s _
      by_cases hn : n ∈ s.1
      · simpa only [topo, if_pos hn] using hn
      · cases hch : (env.node n).children with
        | none =>
            simp only [topo, if_neg hn, hch]
            exact List.mem_cons_self _ _
        | some cs =>
            simp only [topo, if_neg hn, hch]
            have base : n ∈ (n :: s.1, s.2).1 := List.mem_cons_self _ _
            exact foldl_pres (P := fun t => n ∈ t.1) _ cs _
              (fun c _ t ht => topo_vis_sub env fuel c t ht) base

/-- Soundness of the visited set: everything newly visited is reachable
from the traversal root. -/
theorem topo_vis_sound (env : Env) :
    ∀ fuel n s, ∀ m ∈ (topo env fuel n s).1, m ∈ s.1 ∨ Reach env n m := by
  intro fuel
  induction fuel with
  | zero => intro n s m hm; exact Or.inl hm
  | succ fuel ih =>
      intro n s m hm
      by_cases hn : n ∈ s.1
      · rw [topo, if_pos hn] at hm
        exact Or.inl hm
      · cases hch : (env.node n).children with
        | none =>
            rw [topo, if_neg hn] at hm
            simp only [hch] at hm
            rcases List.mem_cons.mp hm with h | h
            · exact Or.inr (h ▸ Relation.ReflTransGen.refl)
            · exact Or.inl h
        | some cs =>
            rw [topo, if_neg hn] at hm
            simp only [hch] at hm
            have hfold := foldl_pres
              (P := fun t => ∀ m2 ∈ t.1, m2 ∈ s.1 ∨ Reach env n m2) _ cs (n :: s.1, s.2)
              (fun c hc t ht m2 hm2 => by
                rcases ih c t m2 hm2 with h | h
                · exact ht m2 h
                · refine Or.inr (Relation.ReflTransGen.head ?_ h)
                  show c ∈ env.childrenOf n
                  rw [childrenOf_eq hch]
                  exact hc)
              (fun m2 hm2 => by
                rcases List.mem_cons.mp hm2 with h | h
                · exact Or.inr (h ▸ Relation.ReflTransGen.refl)
                · exact Or.inl h)
            exact hfold m hm

/-- Soundness of the order list: everything newly appended is reachable,
has children, and was not visited before the call. -/
theorem topo_ord_sound (env : Env) :
    ∀ fuel n s, ∀ m ∈ (topo env fuel n s).2,
      m ∈ s.2 ∨ (Reach env n m ∧ env.HasKids m ∧ m ∉ s.1) := by
  intro fuel
  induction fuel with
  | zero => intro n s m hm; exact Or.inl hm
  | succ fuel ih =>
      intro n s m hm
      by_cases hn : n ∈ s.1
      · rw [topo, if_pos hn] at hm
        exact Or.inl hm
      · cases hch : (env.node n).children with
        | none =>
            rw [topo, if_neg hn] at hm
            simp only [hch] at hm
            exact Or.inl hm
        | some cs =>
            rw [topo, if_neg hn] at hm
            simp only [hch] at hm
            rcases List.mem_append.mp hm with hm2 | hm2
            · have hfold := foldl_pres
                (P := fun t => (n :: s.1 : List ℕ) ⊆ t.1 ∧
                  ∀ m2 ∈ t.2, m2 ∈ s.2 ∨ (Reach env n m2 ∧ env.HasKids m2 ∧ m2 ∉ s.1))
                _ cs (n :: s.1, s.2)
                (fun c hc t ht => by
                  refine ⟨ht.1.trans (topo_vis_sub env fuel c t), ?_⟩
                  intro m2 hm2
                  rcases ih c t m2 hm2 with h | h
                  · exact ht.2 m2 h
                  · refine Or.inr ⟨Relation.ReflTransGen.head ?_ h.1, h.2.1, ?_⟩
                    · show c ∈ env.childrenOf n
                      rw [childrenOf_eq hch]
                      exact hc
                    · intro hmem
                      exact h.2.2 (ht.1 (List.mem_cons_of_mem _ hmem)))
                ⟨fun a ha => ha, fun m2 hm2 => Or.inl hm2⟩
              exact hfold.2 m hm2
            · have hmn : m = n := by simpa using hm2
              subst hmn
              refine Or.inr ⟨Relation.ReflTransGen.refl, ?_, hn⟩
              unfold Env.HasKids
              simp [hch]

end Oxigrad

namespace Oxigrad

/-- The invariant of the traversal state: the order list is duplicate
free, contained in the visited set, holds only nodes with children, is
closed (children of a listed node are visited, and themselves listed when
they have children), and is topologically sorted: no listed node is
followed by one of its strict descendants. -/
def Inv (env : Env) (s : List ℕ × List ℕ) : Prop :=
  s.2.Nodup ∧
  (∀ m ∈ s.2, m ∈ s.1) ∧
  (∀ m ∈ s.2, env.HasKids m) ∧
  (∀ m ∈ s.2, ∀ c ∈ env.childrenOf m, c ∈ s.1 ∧ (env.HasKids c → c ∈ s.2)) ∧
  s.2.Pairwise (fun a b => ¬ Desc env a b)

/-- Every visited node with id at most the bound that has children is
already listed.  On entry to a traversal call on node n this holds with
bound n, because the only visited-but-unfinished nodes are the ancestors
on the call stack, whose ids all exceed n in a well-formed arena. -/
def Bnd (env : Env) (s : List ℕ × List ℕ) (n : ℕ) : Prop :=
  ∀ v ∈ s.1, v ≤ n → env.HasKids v → v ∈ s.2

/-- Every node visited by the call (not visited before) is child-closed
in the final visited set. -/
def NewClosed (env : Env) (s t : List ℕ × List ℕ) : Prop :=
  ∀ m ∈ t.1, m ∉ s.1 → ∀ c ∈ env.childrenOf m, c ∈ t.1

/-- Every node visited by the call that has children ends up listed. -/
def NewListed (env : Env) (s t : List ℕ × List ℕ) : Prop :=
  ∀ m ∈ t.1, m ∉ s.1 → env.HasKids m → m ∈ t.2

/-- Following any strict-descendant chain from a listed node stays inside
the visited set, and inside the order list at nodes with children. -/
theorem listed_desc (env : Env) {s : List ℕ × List ℕ}
    (h3 : ∀ m ∈ s.2, ∀ c ∈ env.childrenOf m, c ∈ s.1 ∧ (env.HasKids c → c ∈ s.2)) :
    ∀ a ∈ s.2, ∀ m, Desc env a m → m ∈ s.1 ∧ (env.HasKids m → m ∈ s.2) := by
  intro a ha m hdesc
  induction hdesc with
  | single hstep => exact h3 a ha _ hstep
  | tail hd hstep ih =>
      exact h3 _ (ih.2 (mem_childrenOf_hasKids hstep)) _ hstep

/-- Every child in the folded list ends up visited. -/
theorem foldl_mem_vis (env : Env) (fuel : ℕ) (hf : 0 < fuel) :
    ∀ (cs : List ℕ) (s : List ℕ × List ℕ), ∀ c ∈ cs,
      c ∈ (cs.foldl (fun t c2 => topo env fuel c2 t) s).1 := by
  intro cs
  induction cs with
  | nil => intro s c hc; cases hc
  | cons c cs ih =>
      intro s c2 hc2
      simp only [List.foldl_cons]
      rcases List.mem_cons.mp hc2 with rfl | h
      · exact foldl_pres (P := fun t => c2 ∈ t.1) _ cs _
          (fun c3 _ t ht => topo_vis_sub env fuel c3 t ht)
          (topo_mem_self env fuel c2 s hf)
      · exact ih _ c2 h

/-- Main invariant preservation of the depth-first traversal on a
well-formed arena, with enough fuel.  A call on node n with the invariant
and the bound-n condition preserves the invariant and closes and lists
everything it visits. -/
theorem topo_master (env : Env) (hWF : ∀ n c, c ∈ env.childrenOf n → c < n) :
    ∀ fuel n s, n < fuel → Inv env s → Bnd env s n →
      Inv env (topo env fuel n s) ∧ NewClosed env s (topo env fuel n s) ∧
      NewListed env s (topo env fuel n s) := by
  intro fuel
  induction fuel with
  | zero => intro n s hn; exact absurd hn (Nat.not_lt_zero n)
  | succ fuel ih =>
      intro n s hn hInv hBnd
      by_cases hvis : n ∈ s.1
      · simp only [topo, if_pos hvis]
        refine ⟨hInv, ?_, ?_⟩
        · intro m hm hms c hc; exact absurd hm hms
        · intro m hm hms; exact absurd hm hms
      · cases hch : (env.node n).children with
        | none =>
            simp only [topo, if_neg hvis, hch]
            have hkidsn : ¬ env.HasKids n := by simp [Env.HasKids, hch]
            have hchn : env.childrenOf n = [] := by simp [Env.childrenOf, hch]
            obtain ⟨h1, h2, h3, h4, h5⟩ := hInv
            refine ⟨⟨h1, ?_, h3, ?_, h5⟩, ?_, ?_⟩
            · intro m hm; exact List.mem_cons_of_mem _ (h2 m hm)
            · intro m hm c hc
              obtain ⟨hc1, hc2⟩ := h4 m hm c hc
              exact ⟨List.mem_cons_of_mem _ hc1, hc2⟩
            · intro m hm hms c hc
              rcases List.mem_cons.mp hm with rfl | hm2
              · rw [hchn] at hc; cases hc
              · exact absurd hm2 hms
            · intro m hm hms hk
              rcases List.mem_cons.mp hm with rfl | hm2
              · exact absurd hk hkidsn
              · exact absurd hm2 hms
        | some cs =>
            simp only [topo, if_neg hvis, hch]
            have hchn : env.childrenOf n = cs := childrenOf_eq hch
            have hkidsn : env.HasKids n := by simp [Env.HasKids, hch]
            have hfold := foldl_pres
              (P := fun t =>
                Inv env t ∧ (n :: s.1 : List ℕ) ⊆ t.1 ∧ (∀ m ∈ s.2, m ∈ t.2) ∧
                NewClosed env (n :: s.1, s.2) t ∧ NewListed env (n :: s.1, s.2) t ∧
                (∀ m ∈ t.2, m ∈ s.2 ∨ m ∉ (n :: s.1 : List ℕ)))
              (fun c t => topo env fuel c t) cs (n :: s.1, s.2)
              (fun c hc t ht => by
                obtain ⟨hInvT, hsubT, hordT, hncT, hnlT, hnewT⟩ := ht
                have hcn : c < n := hWF n c (hchn ▸ hc)
                have hcf : c < fuel := by omega
                have hBndT : Bnd env t c := by
                  intro v hv hvc hkv
                  by_cases hvs1 : v ∈ (n :: s.1 : List ℕ)
                  · rcases List.mem_cons.mp hvs1 with rfl | hvs
                    · omega
                    · exact hordT v (hBnd v hvs (by omega) hkv)
                  · exact hnlT v hv hvs1 hkv
                obtain ⟨hInvT2, hncT2, hnlT2⟩ := ih c t hcf hInvT hBndT
                refine ⟨hInvT2, hsubT.trans (topo_vis_sub env fuel c t), ?_, ?_, ?_, ?_⟩
                · intro m hm; exact topo_ord_sub env fuel c t m (hordT m hm)
                · intro m hm hms1 c2 hc2
                  by_cases hmt : m ∈ t.1
                  · exact topo_vis_sub env fuel c t (hncT m hmt hms1 c2 hc2)
                  · exact hncT2 m hm hmt c2 hc2
                · intro m hm hms1 hk
                  by_cases hmt : m ∈ t.1
                  · exact topo_ord_sub env fuel c t m (hnlT m hmt hms1 hk)
                  · exact hnlT2 m hm hmt hk
                · intro m hm
                  rcases topo_ord_sound env fuel c t m hm with h | h
                  · exact hnewT m h
                  · exact Or.inr (fun hmem => h.2.2 (hsubT hmem)))
              (by
                obtain ⟨h1, h2, h3, h4, h5⟩ := hInv
                refine ⟨⟨h1, fun m hm => List.mem_cons_of_mem _ (h2 m hm), h3,
                  fun m hm c hc => ⟨List.mem_cons_of_mem _ ((h4 m hm c hc).1),
                    (h4 m hm c hc).2⟩, h5⟩,
                  fun a ha => ha, fun m hm => hm,
                  fun m hm hms c hc => absurd hm hms,
                  fun m hm hms hk => absurd hm hms,
                  fun m hm => Or.inl hm⟩)
            obtain ⟨hInvF, hsubF, hordF, hncF, hnlF, hnewF⟩ := hfold
            obtain ⟨f1, f2, f3, f4, f5⟩ := hInvF
            have hcs_vis : ∀ c ∈ cs,
                c ∈ (cs.foldl (fun t c2 => topo env fuel c2 t) (n :: s.1, s.2)).1 := by
              intro c hc
              have hcn : c < n := hWF n c (hchn ▸ hc)
              exact foldl_mem_vis env fuel (by omega) cs _ c hc
            have hnord : n ∉ (cs.foldl (fun t c2 => topo env fuel c2 t) (n :: s.1, s.2)).2 := by
              intro hmem
              rcases hnewF n hmem with h | h
              · exact hvis (hInv.2.1 n h)
              · exact h (List.mem_cons_self _ _)
            have hkid_in_ord : ∀ c ∈ cs, env.HasKids c →
                c ∈ (cs.foldl (fun t c2 => topo env fuel c2 t) (n :: s.1, s.2)).2 := by
              intro c hc hk
              have hcn : c < n := hWF n c (hchn ▸ hc)
              by_cases hcs1 : c ∈ (n :: s.1 : List ℕ)
              · rcases List.mem_cons.mp hcs1 with rfl | hcs
                · omega
                · exact hordF c (hBnd c hcs (by omega) hk)
              · exact hnlF c (hcs_vis c hc) hcs1 hk
            refine ⟨⟨?_, ?_, ?_, ?_, ?_⟩, ?_, ?_⟩
            · rw [List.nodup_append]
              exact ⟨f1, List.nodup_singleton n, fun a ha hb => by
                rw [List.mem_singleton] at hb
                exact hnord (hb ▸ ha)⟩
            · intro m hm
              rcases List.mem_append.mp hm with h | h
              · exact f2 m h
              · rw [List.mem_singleton] at h
                exact hsubF (h ▸ List.mem_cons_self n s.1)
            · intro m hm
              rcases List.mem_append.mp hm with h | h
              · exact f3 m h
              · rw [List.mem_singleton] at h
                exact h ▸ hkidsn
            · intro m hm c hc
              rcases List.mem_append.mp hm with h | h
              · obtain ⟨hc1, hc2⟩ := f4 m h c hc
                exact ⟨hc1, fun hk => List.mem_append_left _ (hc2 hk)⟩
              · rw [List.mem_singleton] at h
                subst h
                rw [hchn] at hc
                exact ⟨hcs_vis c hc, fun hk => List.mem_append_left _ (hkid_in_ord c hc hk)⟩
            · rw [List.pairwise_append]
              refine ⟨f5, List.pairwise_singleton _ _, ?_⟩
              intro a ha b hb hdesc
              rw [List.mem_singleton] at hb
              subst hb
              exact hnord ((listed_desc env f4 a ha b hdesc).2 hkidsn)
            · intro m hm hms c hc
              by_cases hmn : m = n
              · subst hmn
                rw [hchn] at hc
                exact hcs_vis c hc
              · refine hncF m hm ?_ c hc
                intro hmem
                rcases List.mem_cons.mp hmem with h | h
                · exact hmn h
                · exact hms h
            · intro m hm hms hk
              by_cases hmn : m = n
              · subst hmn
                exact List.mem_append_right _ (List.mem_singleton.mpr rfl)
              · refine List.mem_append_left _ (hnlF m hm ?_ hk)
                intro hmem
                rcases List.mem_cons.mp hmem with h | h
                · exact hmn h
                · exact hms h

end Oxigrad

/-- C3.  For a well-formed arena (as produced by the operation builders,
where each child id precedes its parent), the order list computed by the
backward traversal contains exactly the nodes reachable from the root
that have children — each exactly once and never a leaf — and it is a
valid topological order: no listed node is followed by one of its strict
descendants, so in the reversed replay order no node precedes any of its
ancestors, hence every parent rule that writes into a grad cell runs
before the rule of the node owning that cell. -/
theorem oxigrad_C3_traversal_topological (env : Env) (hWF : WF env) (root : ℕ) :
    (∀ n, n ∈ ordOf env root ↔ (Reach env root n ∧ env.HasKids n)) ∧
    (ordOf env root).Nodup ∧
    (ordOf env root).Pairwise (fun a b => ¬ Desc env a b) ∧
    (ordOf env root).reverse.Pairwise (fun a b => ¬ Desc env b a) := by
  have hWFa := wf_all hWF
  have hInv0 : Inv env ([], []) := by
    refine ⟨List.nodup_nil, ?_, ?_, ?_, List.Pairwise.nil⟩ <;> intro m hm <;> cases hm
  have hBnd0 : Bnd env ([], []) root := by
    intro v hv; cases hv
  obtain ⟨hInvF, hncF, hnlF⟩ :=
    topo_master env hWFa (root + 1) root ([], []) (Nat.lt_succ_self root) hInv0 hBnd0
  obtain ⟨h1, h2, h3, h4, h5⟩ := hInvF
  have hreach_vis : ∀ m, Reach env root m → m ∈ (topo env (root + 1) root ([], [])).1 := by
    intro m hm
    induction hm with
    | refl => exact topo_mem_self env (root + 1) root ([], []) (Nat.succ_pos root)
    | tail hab hbc ih => exact hncF _ ih (by simp) _ hbc
  refine ⟨?_, h1, h5, ?_⟩
  · intro n
    constructor
    · intro hmem
      rcases topo_ord_sound env (root + 1) root ([], []) n hmem with h | h
      · cases h
      · exact ⟨h.1, h.2.1⟩
    · rintro ⟨hr, hk⟩
      exact hnlF n (hreach_vis n hr) (by simp) hk
  · rw [List.pairwise_reverse]
    exact h5

/-- C3 witness: the traversal-order theorem applied to the concrete
well-formed example graph a = 1, b = 2, c = a + b, d = c * b with root d. -/
theorem oxigrad_C3_witness :
    WF exEnv ∧
    ((∀ n, n ∈ ordOf exEnv 3 ↔ (Reach exEnv 3 n ∧ exEnv.HasKids n)) ∧
     (ordOf exEnv 3).Nodup ∧
     (ordOf exEnv 3).Pairwise (fun a b => ¬ Desc exEnv a b) ∧
     (ordOf exEnv 3).reverse.Pairwise (fun a b => ¬ Desc exEnv b a)) :=
  ⟨by decide, oxigrad_C3_traversal_topological exEnv (by decide) 3⟩

namespace Oxigrad

/-- Dereferencing after pushing one record: existing ids read as before,
the fresh id reads the new record, ids beyond read as the default leaf. -/
theorem node_push (env : Env) (x : Node) (d g : ℕ → ℚ) (n : ℕ) :
    (Env.mk (env.nodes ++ [x]) d g).node n =
      if n < env.nodes.length then env.node n
      else if n = env.nodes.length then x else defaultNode := by
  unfold Env.node
  by_cases h1 : n < env.nodes.length
  · rw [if_pos h1, List.getD_append _ _ _ _ h1]
  · rw [if_neg h1]
    by_cases h2 : n = env.nodes.length
    · subst h2
      rw [if_pos rfl, List.getD_append_right _ _ _ _ (le_refl _)]
      simp
    · rw [if_neg h2]
      refine List.getD_eq_default _ _ ?_
      simp only [List.length_append, List.length_cons, List.length_nil]
      omega

/-- The arenas that arise from the public constructors of the engine: the
empty world extended by leaf constructors and by the four primitive
operation builders on already-existing ids.  The derived neg, sub and div
builders are compositions of these. -/
inductive Built : Env → Prop where
  | empty : Built env0
  | newB {env : Env} (d : ℚ) : Built env → Built (Value.new env d).1
  | addB {env : Env} {a b : ℕ} : Built env → a < env.nodes.length →
      b < env.nodes.length → Built (Value.add env a b).1
  | mulB {env : Env} {a b : ℕ} : Built env → a < env.nodes.length →
      b < env.nodes.length → Built (Value.mul env a b).1
  | powB {env : Env} {a : ℕ} (k : ℤ) : Built env → a < env.nodes.length →
      Built (Value.power env a k).1
  | reluB {env : Env} {a : ℕ} : Built env → a < env.nodes.length →
      Built (Value.relu env a).1

/-- Pushing one record preserves the structural invariant, when the new
record has a rule exactly if it has children and only references existing
ids. -/
theorem push_spec {env : Env} (x : Node) (d g : ℕ → ℚ)
    (hx_iff : x.children = none ↔ x.back = none)
    (hx_lt : ∀ c ∈ x.children.getD [], c < env.nodes.length)
    (ih : ∀ n, ((env.node n).children = none ↔ (env.node n).back = none) ∧
      ∀ c ∈ env.childrenOf n, c < n) :
    ∀ n, (((Env.mk (env.nodes ++ [x]) d g).node n).children = none ↔
          ((Env.mk (env.nodes ++ [x]) d g).node n).back = none) ∧
      ∀ c ∈ (Env.mk (env.nodes ++ [x]) d g).childrenOf n, c < n := by
  intro n
  have hn := node_push env x d g n
  have hco : (Env.mk (env.nodes ++ [x]) d g).childrenOf n =
      ((if n < env.nodes.length then env.node n
        else if n = env.nodes.length then x else defaultNode)).children.getD [] := by
    unfold Env.childrenOf
    rw [hn]
  by_cases h1 : n < env.nodes.length
  · rw [hn, if_pos h1]
    rw [hco, if_pos h1]
    exact ⟨(ih n).1, fun c hc => (ih n).2 c hc⟩
  · by_cases h2 : n = env.nodes.length
    · subst h2
      rw [hn, if_neg h1, if_pos rfl]
      rw [hco, if_neg h1, if_pos rfl]
      exact ⟨hx_iff, fun c hc => hx_lt c hc⟩
    · rw [hn, if_neg h1, if_neg h2]
      rw [hco, if_neg h1, if_neg h2]
      refine ⟨by simp [defaultNode], ?_⟩
      intro c hc
      simp [defaultNode] at hc

/-- Structural invariant of every built arena: a node has a derivative
rule exactly when it has children, and every child id is smaller than the
id of its parent. -/
theorem built_spec {env : Env} (h : Built env) :
    ∀ n, ((env.node n).children = none ↔ (env.node n).back = none) ∧
      ∀ c ∈ env.childrenOf n, c < n := by
  induction h with
  | empty =>
      intro n
      have hnode : Env.node env0 n = defaultNode := by
        unfold Env.node env0
        simp
      have hco : Env.childrenOf env0 n = [] := by
        unfold Env.childrenOf
        rw [hnode]
        simp [defaultNode]
      rw [hnode, hco]
      exact ⟨by simp [defaultNode], fun c hc => by cases hc⟩
  | newB d hb ih =>
      exact push_spec defaultNode _ _ (by simp [defaultNode]) (by simp [defaultNode]) ih
  | addB hb ha hb2 ih =>
      refine push_spec _ _ _ (by simp) ?_ ih
      intro c hc
      simp only [Option.getD_some] at hc
      rcases List.mem_cons.mp hc with rfl | hc2
      · assumption
      · exact (List.mem_singleton.mp hc2) ▸ hb2
  | mulB hb ha hb2 ih =>
      refine push_spec _ _ _ (by simp) ?_ ih
      intro c hc
      simp only [Option.getD_some] at hc
      rcases List.mem_cons.mp hc with rfl | hc2
      · assumption
      · exact (List.mem_singleton.mp hc2) ▸ hb2
  | powB k hb ha ih =>
      refine push_spec _ _ _ (by simp) ?_ ih
      intro c hc
      simp only [Option.getD_some] at hc
      exact (List.mem_singleton.mp hc) ▸ ha
  | reluB hb ha ih =>
      refine push_spec _ _ _ (by simp) ?_ ih
      intro c hc
      simp only [Option.getD_some] at hc
      exact (List.mem_singleton.mp hc) ▸ ha

/-- Built arenas are well-formed. -/
theorem built_wf {env : Env} (h : Built env) : WF env :=
  fun n _ c hc => (built_spec h n).2 c hc

/-- In a built arena, a rule is missing exactly on the leaves. -/
theorem built_back {env : Env} (h : Built env) :
    ∀ n, ((env.node n).children = none ↔ (env.node n).back = none) :=
  fun n => (built_spec h n).1

/-- The replay loop returns `none` exactly when some node of the list has
no attached rule; the order of the list and the grad writes of the
successful prefix do not matter for this. -/
theorem replay_none_iff (env : Env) :
    ∀ (l : List ℕ) (e : Env), e.nodes = env.nodes →
      (replay e l = none ↔ ∃ n ∈ l, (env.node n).back = none) := by
  intro l
  induction l with
  | nil =>
      intro e he
      simp [replay]
  | cons n ns ih =>
      intro e he
      have hnode : e.node n = env.node n := by
        unfold Env.node
        rw [he]
      cases hb : (env.node n).back with
      | none =>
          constructor
          · intro _
            exact ⟨n, List.mem_cons_self _ _, hb⟩
          · intro _
            simp only [replay, hnode, hb]
      | some r =>
          have hrun : (r.run e).nodes = env.nodes := (run_nodes_data r e).1.trans he
          have hih := ih (r.run e) hrun
          constructor
          · intro hrep
            simp only [replay, hnode, hb] at hrep
            obtain ⟨m, hm, hmb⟩ := hih.mp hrep
            exact ⟨m, List.mem_cons_of_mem _ hm, hmb⟩
          · rintro ⟨m, hm, hmb⟩
            rcases List.mem_cons.mp hm with rfl | hm2
            · rw [hb] at hmb; cases hmb
            · simp only [replay, hnode, hb]
              exact hih.mpr ⟨m, hm2, hmb⟩

end Oxigrad

/-- C4.  The backward call aborts fatally (modelled by `none`) exactly
when its traversal order contains a node that has children but carries no
attached rule; there is no other failure path, and on any arena built
purely through the operation builders backward never aborts, because
there every node with children carries a rule. -/
theorem oxigrad_C4_panic_iff_missing_rule (env : Env) (root : ℕ) :
    (Value.backward env root = none ↔
      ∃ n ∈ ordOf env root, env.HasKids n ∧ (env.node n).back = none) ∧
    (Built env → (Value.backward env root).isSome = true) := by
  have hkids : ∀ n ∈ ordOf env root, env.HasKids n := by
    intro n hn
    rcases topo_ord_sound env (root + 1) root ([], []) n hn with h | h
    · cases h
    · exact h.2.1
  have hrep := replay_none_iff env ((ordOf env root).reverse) (Value.set_grad env root 1) rfl
  have hmain : Value.backward env root = none ↔
      ∃ n ∈ ordOf env root, (env.node n).back = none := by
    constructor
    · intro h
      obtain ⟨n, hn, hb⟩ := hrep.mp h
      exact ⟨n, List.mem_reverse.mp hn, hb⟩
    · rintro ⟨n, hn, hb⟩
      exact hrep.mpr ⟨n, List.mem_reverse.mpr hn, hb⟩
  constructor
  · constructor
    · intro h
      obtain ⟨n, hn, hb⟩ := hmain.mp h
      exact ⟨n, hn, hkids n hn, hb⟩
    · rintro ⟨n, hn, _, hb⟩
      exact hmain.mpr ⟨n, hn, hb⟩
  · intro hbuilt
    rw [Option.isSome_iff_ne_none]
    intro hnone
    obtain ⟨n, hn, hb⟩ := hmain.mp hnone
    exact hkids n hn ((built_back hbuilt n).mpr hb)

/-- C4 witness: the example graph a = 1, b = 2, c = a + b, d = c * b is
built through the builders and its backward call returns a result. -/
theorem oxigrad_C4_witness :
    Built exEnv ∧ (Value.backward exEnv 3).isSome = true := by
  have hbuilt : Built exEnv :=
    Built.mulB (Built.addB (Built.newB 2 (Built.newB 1 Built.empty))
      (by decide) (by decide)) (by decide) (by decide)
  exact ⟨hbuilt, (oxigrad_C4_panic_iff_missing_rule exEnv 3).2 hbuilt⟩
